import Mathlib

/-!
Verification of the core of the yolo8-object-detection-runtime repository:
the bounded closeable frame queue (`FrameQueue` in `src/frame_queue.cpp`),
the detection postprocessor (`postprocess` / `computeIoU` in `src/nms.cpp`),
and the greedy multi-object tracker (the `consumer` loop in `src/frame.cpp`).

Numbers are embedded as rationals (the C++ uses `float`; all the properties
proved here are order/arithmetic facts that hold for exact arithmetic).
Stateful code is embedded as explicit state passing; the lock-protected
bodies of the queue operations become atomic transitions of a step relation.
-/

namespace Yolo

/-! ## Bounded closeable frame queue, from `FrameQueue` (src/frame_queue.cpp)

The queue state is the lock-protected data: the buffered items `q`
(producer appends at the tail, consumer removes at the head), the fixed
capacity `max_size` and the `closed` flag.  The payload type is opaque to
the queue (the C++ stores `cv::Mat` clones), so it is a type parameter. -/

structure FrameQueue (α : Type) where
  q : List α
  max_size : ℕ
  closed : Bool
deriving DecidableEq

/-- The constructor `FrameQueue(size_t max_size)`: empty buffer, not closed. -/
def FrameQueue.init (α : Type) (C : ℕ) : FrameQueue α :=
  { q := [], max_size := C, closed := false }

/-- `FrameQueue::close()`: sets the closed flag (the condition-variable
broadcasts wake waiters but do not change the protected state). -/
def FrameQueue.close (s : FrameQueue α) : FrameQueue α :=
  { s with closed := true }

/-- The body of `FrameQueue::pop` once its wait predicate
`!q.empty() || closed` holds (after `close()` it always holds, so pop
never blocks): if the buffer is empty (hence closed) it returns false,
otherwise it removes and returns the head.  `none` models `return false`. -/
def FrameQueue.popOp (s : FrameQueue α) : Option α × FrameQueue α :=
  match s.q with
  | [] => (none, s)
  | f :: rest => (some f, { s with q := rest })

/-- `n` successive completed `pop` calls, collecting their results. -/
def FrameQueue.popN : ℕ → FrameQueue α → List (Option α) × FrameQueue α
  | 0, s => ([], s)
  | n + 1, s =>
    let r := s.popOp
    let rs := FrameQueue.popN n r.2
    (r.1 :: rs.1, rs.2)

/-- Observable result of one completed queue operation. -/
inductive QEvent (α : Type) where
  | pushMsg (f : α) (ok : Bool)
  | popMsg (r : Option α)
  | closeMsg
deriving DecidableEq

/-- One completed queue operation, as the atomic transition its
lock-protected body performs.

* `push` returns false at once when the queue is closed or `max_size == 0`,
  and also when it is woken from its wait by `close()` (both give state
  `closed = true`); it enqueues and returns true only when the queue is
  open and `q.size() < max_size`.  A push on a full open queue blocks, so
  it completes no transition.
* `pop` returns false only on an empty closed queue; on a non-empty queue
  it removes the head.  A pop on an empty open queue blocks.
* `close` sets the closed flag. -/
inductive QStep : FrameQueue α → QEvent α → FrameQueue α → Prop
  | push_refused {s : FrameQueue α} {f : α} :
      s.closed = true ∨ s.max_size = 0 → QStep s (.pushMsg f false) s
  | push_ok {s : FrameQueue α} {f : α} :
      s.closed = false → s.q.length < s.max_size →
      QStep s (.pushMsg f true) { s with q := s.q ++ [f] }
  | pop_none {s : FrameQueue α} :
      s.q = [] → s.closed = true → QStep s (.popMsg none) s
  | pop_some {s : FrameQueue α} {f : α} {rest : List α} :
      s.q = f :: rest → QStep s (.popMsg (some f)) { s with q := rest }
  | close_step {s : FrameQueue α} : QStep s .closeMsg s.close

/-- States reachable by a sequence of completed queue operations. -/
inductive QReach : FrameQueue α → FrameQueue α → Prop
  | refl (s : FrameQueue α) : QReach s s
  | step {s t u : FrameQueue α} {e : QEvent α} :
      QReach s t → QStep t e u → QReach s u

/-! ## Detection postprocessor, from `postprocess` / `computeIoU` (src/nms.cpp)

The raw score tensor `cv::Mat predictions` is embedded as its shape plus an
entry function (row, column ↦ value); `predictions.empty()` corresponds to
a tensor with no data, i.e. zero rows or zero columns.  `cv::Size` and
`cv::Rect2f` are embedded field by field, and `Detection` is the struct
from headers/nms.h. -/

structure Mat where
  rows : ℕ
  cols : ℕ
  entry : ℕ → ℕ → ℚ

def Mat.isEmpty (m : Mat) : Bool :=
  m.rows == 0 || m.cols == 0

structure Size where
  width : ℤ
  height : ℤ
deriving DecidableEq

structure Rect2f where
  x : ℚ
  y : ℚ
  width : ℚ
  height : ℚ
deriving DecidableEq

/-- The `Detection` struct of headers/nms.h: `box`, `conf`, `cls`. -/
structure Detection where
  box : Rect2f
  conf : ℚ
  cls : ℤ
deriving DecidableEq

instance : Inhabited Detection :=
  ⟨{ box := { x := 0, y := 0, width := 0, height := 0 }, conf := 0, cls := 0 }⟩

/-- `computeIoU` from src/nms.cpp: intersection over union of two
rectangles, 0 when they do not overlap or the union area is non-positive. -/
def computeIoU (a b : Rect2f) : ℚ :=
  let x1 := max a.x b.x
  let y1 := max a.y b.y
  let x2 := min (a.x + a.width) (b.x + b.width)
  let y2 := min (a.y + a.height) (b.y + b.height)
  if x2 ≤ x1 ∨ y2 ≤ y1 then 0
  else
    let intersection_area := (x2 - x1) * (y2 - y1)
    let area_a := a.width * a.height
    let area_b := b.width * b.height
    let union_area := area_a + area_b - intersection_area
    if union_area ≤ 0 then 0
    else intersection_area / union_area

/-- The inner loop of `postprocess` over the class-score rows
`j = 4 .. rows-1` of anchor column `i`: running maximum score (starting at
`0`) and its class index `j - 4` (starting at `-1`, updated only on a
strictly larger score). -/
def anchorMaxClass (preds : Mat) (i : ℕ) : ℚ × ℤ :=
  (List.range (preds.rows - 4)).foldl
    (fun acc jc =>
      if acc.1 < preds.entry (4 + jc) i then (preds.entry (4 + jc) i, (jc : ℤ)) else acc)
    (0, -1)

/-- Decoding of one anchor column of `postprocess`: class-score scan,
confidence gate, center-to-corner conversion, rescaling by
`original / 640` independently in x and y, clipping to the original image,
and the final positive-size check. -/
def decodeAnchor (preds : Mat) (original_image_size : Size) (conf_threshold : ℚ)
    (i : ℕ) : Option Detection :=
  let mc := anchorMaxClass preds i
  if mc.1 < conf_threshold then none
  else
    let center_x := preds.entry 0 i
    let center_y := preds.entry 1 i
    let width := preds.entry 2 i
    let height := preds.entry 3 i
    let x1 := center_x - width / 2
    let y1 := center_y - height / 2
    let scale_x := (original_image_size.width : ℚ) / 640
    let scale_y := (original_image_size.height : ℚ) / 640
    let x1s := x1 * scale_x
    let y1s := y1 * scale_y
    let ws := width * scale_x
    let hs := height * scale_y
    let x1c := max 0 (min x1s (original_image_size.width : ℚ))
    let y1c := max 0 (min y1s (original_image_size.height : ℚ))
    let wc := min ws ((original_image_size.width : ℚ) - x1c)
    let hc := min hs ((original_image_size.height : ℚ) - y1c)
    if 0 < wc ∧ 0 < hc then
      some { box := { x := x1c, y := y1c, width := wc, height := hc },
             conf := mc.1, cls := mc.2 }
    else none

/-- The anchor loop of `postprocess`: surviving detections in anchor
(column) order. -/
def decodeDetections (preds : Mat) (original_image_size : Size)
    (conf_threshold : ℚ) : List Detection :=
  (List.range preds.cols).filterMap (decodeAnchor preds original_image_size conf_threshold)

/-- Insertion of a detection into a list sorted by confidence descending,
using the comparator `a.conf > b.conf` that the source passes to
`std::sort`. -/
def insertDet (d : Detection) : List Detection → List Detection
  | [] => [d]
  | e :: rest => if e.conf < d.conf then d :: e :: rest else e :: insertDet d rest

/-- A determinization of the `std::sort(detections, a.conf > b.conf)` call:
the C++ standard only guarantees that the result is a permutation of the
input ordered by the comparator (the relative order of equal-confidence
elements is unspecified); this particular refinement realizes it as an
insertion sort. -/
def sortDetections : List Detection → List Detection
  | [] => []
  | d :: rest => insertDet d (sortDetections rest)

/-- The contract of `std::sort(detections, a.conf > b.conf)`: the output is
a permutation of the input, sorted by confidence in descending order. -/
def SortByConfDesc (l out : List Detection) : Prop :=
  out.Perm l ∧ out.Pairwise (fun a b => b.conf ≤ a.conf)

/-- Tie stability for a sort keyed on confidence: equal-confidence
detections keep their original relative order, i.e. restricting the output
to any one confidence value reproduces the corresponding restriction of
the input. -/
def TiesKeepOrder (l out : List Detection) : Prop :=
  ∀ c : ℚ, out.filter (fun d => d.conf == c) = l.filter (fun d => d.conf == c)

/-- The suppression test of the inner NMS loop: emitted detection at sorted
position `i` suppresses a later detection at position `j` when the classes
agree and the IoU strictly exceeds the threshold. -/
def suppCond (l : List Detection) (iou_threshold : ℚ) (i j : ℕ) : Bool :=
  decide ((l.getD i default).cls = (l.getD j default).cls) &&
  decide (iou_threshold < computeIoU (l.getD i default).box (l.getD j default).box)

/-- The NMS double loop of `postprocess` over sorted positions: walk the
index list; a position still unsuppressed is emitted and marks every later
position it suppresses (the function update is only ever read at positions
after `i`, matching the inner loop over `j = i+1 ..`). -/
def nmsRun (l : List Detection) (iou_threshold : ℚ) :
    List ℕ → (ℕ → Bool) → List ℕ
  | [], _ => []
  | i :: rest, sup =>
    if sup i then nmsRun l iou_threshold rest sup
    else i :: nmsRun l iou_threshold rest (fun j => sup j || suppCond l iou_threshold i j)

/-- Class-aware greedy NMS over an (already sorted) detection list. -/
def nms (l : List Detection) (iou_threshold : ℚ) : List Detection :=
  (nmsRun l iou_threshold (List.range l.length) (fun _ => false)).map
    (fun i => l.getD i default)

/-- `postprocess` from src/nms.cpp: early return on an empty tensor, decode
and filter anchors, early return when no detection survives, sort by
confidence descending, class-aware NMS. -/
def postprocess (predictions : Mat) (original_image_size : Size)
    (conf_threshold iou_threshold : ℚ) : List Detection :=
  if predictions.isEmpty then []
  else
    let detections := decodeDetections predictions original_image_size conf_threshold
    if detections.isEmpty then []
    else nms (sortDetections detections) iou_threshold

/-! ### Concrete inputs used by the counterexamples and witnesses -/

/-- A 4-row tensor (fewer than 5 rows) with one anchor carrying plausible
box data, used to probe the malformed-tensor path of `postprocess`. -/
def c3mat : Mat :=
  { rows := 4, cols := 1,
    entry := fun r _ =>
      if r = 0 then 320 else if r = 1 then 320
      else if r = 2 then 100 else if r = 3 then 100 else 0 }

/-- Two equal-confidence detections used against the tie-stability claim. -/
def c5a : Detection := { box := ⟨0, 0, 10, 10⟩, conf := 1 / 2, cls := 0 }

def c5b : Detection := { box := ⟨50, 50, 10, 10⟩, conf := 1 / 2, cls := 1 }

/-- A 6-row, 2-anchor tensor: two overlapping class-0 boxes with
confidences 0.9 and 0.8, used to exercise the suppression branch. -/
def c6mat : Mat :=
  { rows := 6, cols := 2,
    entry := fun r c =>
      if r = 0 then (if c = 0 then 100 else 102)
      else if r = 1 then (if c = 0 then 100 else 102)
      else if r = 2 then 40
      else if r = 3 then 40
      else if r = 4 then (if c = 0 then 9 / 10 else 8 / 10)
      else 0 }

def c6low : Detection := { box := ⟨82, 82, 40, 40⟩, conf := 4 / 5, cls := 0 }

/-- A 5-row tensor whose single class row is identically 0: the class-score
scan never improves on its initial class index -1. -/
def c9mat : Mat :=
  { rows := 5, cols := 1,
    entry := fun r _ =>
      if r = 0 then 320 else if r = 1 then 320
      else if r = 2 then 100 else if r = 3 then 100 else 0 }

/-! ## Greedy multi-object tracker, from the consumer loop (src/frame.cpp)

The consumer keeps a `vector<Track> tracks` and a counter `next_id`, and on
each frame runs: greedy matching of existing tracks to the class-filtered
detections, spawning of new tracks from unmatched confident detections, a
per-track update pass, and eviction of tracks whose `lost` exceeds
`grace_lost`.

The C++ update pass has an out-of-bounds read: it iterates over the tracks
vector *after* the spawn loop appended to it, but indexes `track_assigned`,
which was sized before spawning.  For every track spawned in the current
frame, `track_assigned[ti]` reads past the end of the vector — undefined
behavior.  The embedding makes that read explicit as a `junk` parameter:
`junk ti` is whatever value the out-of-bounds read yields at index `ti`
(`none` models reading `-1`, `some j` models reading a valid detection
index; any other value makes the C++ index `filtered[dj]` out of range,
which the theorems exclude by hypothesis). -/

/-- The `Track` struct of the consumer in src/frame.cpp. -/
structure Track where
  id : ℕ
  box : Rect2f
  conf : ℚ
  cls : ℤ
  age : ℕ
  lost : ℕ
  smooth : Rect2f
deriving DecidableEq

instance : Inhabited Track :=
  ⟨{ id := 0, box := ⟨0, 0, 0, 0⟩, conf := 0, cls := 0, age := 0, lost := 0,
     smooth := ⟨0, 0, 0, 0⟩ }⟩

/-- `iouRect` from src/frame.cpp (the consumer's own IoU; same geometry as
`computeIoU`, with the union guard written as a ternary). -/
def iouRect (a b : Rect2f) : ℚ :=
  let x1 := max a.x b.x
  let y1 := max a.y b.y
  let x2 := min (a.x + a.width) (b.x + b.width)
  let y2 := min (a.y + a.height) (b.y + b.height)
  if x2 ≤ x1 ∨ y2 ≤ y1 then 0
  else
    let inter := (x2 - x1) * (y2 - y1)
    let uni := a.width * a.height + b.width * b.height - inter
    if 0 < uni then inter / uni else 0

/-- The consumer's tracking constants: `alpha = 0.7f`, `match_iou = 0.4f`,
`enter_conf = 0.5f`, `keep_conf = 0.3f`, `min_age_draw = 2`,
`grace_lost = 3`. -/
def alpha : ℚ := 7 / 10

def match_iou : ℚ := 2 / 5

def enter_conf : ℚ := 1 / 2

def keep_conf : ℚ := 3 / 10

def min_age_draw : ℕ := 2

def grace_lost : ℕ := 3

/-- The consumer's tracker state across frames: the track vector and the
`next_id` counter. -/
structure TrackerState where
  tracks : List Track
  next_id : ℕ
deriving DecidableEq

/-- The inner candidate scan of the matching loop, over detection indices
`j`: skip detections already assigned, below the track's confidence gate
(`keep_conf` once matched at least once — `age > 0` — else `enter_conf`),
or of another class; keep the running best IoU (strict improvement over an
initial 0) and its index. -/
def bestScan (t : Track) (filtered : List Detection) (detA : List (Option ℕ)) :
    List ℕ → ℚ × Option ℕ → ℚ × Option ℕ
  | [], acc => acc
  | j :: js, acc =>
    bestScan t filtered detA js
      (match filtered.get? j, detA.get? j with
       | some d, some a =>
         if a.isSome then acc
         else if d.conf < (if 0 < t.age then keep_conf else enter_conf) then acc
         else if d.cls ≠ t.cls then acc
         else if acc.1 < iouRect t.box d.box then (iouRect t.box d.box, some j) else acc
       | _, _ => acc)

/-- The outer matching loop over tracks, in vector order: accept the best
candidate only when its IoU reaches `match_iou`, then mark the detection
(in `det_assigned`, storing the track index `ti`) and the track (in
`track_assigned`, storing the detection index) as used. -/
def greedyLoop (filtered : List Detection) :
    List Track → ℕ → List (Option ℕ) → List (Option ℕ) × List (Option ℕ)
  | [], _, detA => (detA, [])
  | t :: ts, ti, detA =>
    let b := bestScan t filtered detA (List.range filtered.length) (0, none)
    match b.2 with
    | some j =>
      if match_iou ≤ b.1 then
        let rest := greedyLoop filtered ts (ti + 1) (detA.set j (some ti))
        (rest.1, some j :: rest.2)
      else
        let rest := greedyLoop filtered ts (ti + 1) detA
        (rest.1, none :: rest.2)
    | none =>
      let rest := greedyLoop filtered ts (ti + 1) detA
      (rest.1, none :: rest.2)

/-- The matching pass: `det_assigned` and `track_assigned`, both
initialized to all `-1` (`none`). -/
def greedyMatch (tracks : List Track) (filtered : List Detection) :
    List (Option ℕ) × List (Option ℕ) :=
  greedyLoop filtered tracks 0 (List.replicate filtered.length none)

/-- The spawn loop: every unassigned detection with confidence at least
`enter_conf` appends a fresh track with `rawBox = smoothedBox =` the
detection box, `age = 0`, `lost = 0`, and the next id. -/
def spawnLoop (filtered : List Detection) (detA : List (Option ℕ)) :
    List ℕ → ℕ → List Track × ℕ
  | [], n => ([], n)
  | j :: js, n =>
    match filtered.get? j, detA.get? j with
    | some d, some a =>
      if a.isSome then spawnLoop filtered detA js n
      else if d.conf < enter_conf then spawnLoop filtered detA js n
      else
        let rest := spawnLoop filtered detA js (n + 1)
        ({ id := n, box := d.box, smooth := d.box, conf := d.conf, cls := d.cls,
           age := 0, lost := 0 } :: rest.1, rest.2)
    | _, _ => spawnLoop filtered detA js n

/-- The per-track body of the final update loop: a matched track takes the
detection's box, exponentially smoothed display box
(`alpha * new + (1 - alpha) * old`, component-wise), confidence and class,
increments `age` and resets `lost`; an unmatched track increments `lost`.
A `some j` with `j` out of range of `filtered` is undefined behavior in
the C++ (`filtered[dj]` past the end); the theorems exclude it by
hypothesis, and the embedding arbitrarily leaves the track unchanged
there. -/
def updateOne (filtered : List Detection) (dj : Option ℕ) (t : Track) : Track :=
  match dj with
  | some j =>
    match filtered.get? j with
    | some det =>
      { t with
        box := det.box,
        smooth :=
          { x := alpha * det.box.x + (1 - alpha) * t.smooth.x,
            y := alpha * det.box.y + (1 - alpha) * t.smooth.y,
            width := alpha * det.box.width + (1 - alpha) * t.smooth.width,
            height := alpha * det.box.height + (1 - alpha) * t.smooth.height },
        conf := det.conf, cls := det.cls, age := t.age + 1, lost := 0 }
    | none => t
  | none => { t with lost := t.lost + 1 }

/-- The final update loop over the (post-spawn) track vector, reading the
assignment for index `ti` from `dja`. -/
def updateAll (filtered : List Detection) (dja : ℕ → Option ℕ) :
    ℕ → List Track → List Track
  | _, [] => []
  | ti, t :: ts => updateOne filtered (dja ti) t :: updateAll filtered dja (ti + 1) ts

/-- One whole per-frame tracker update, given the class-filtered
detections: matching, spawning, the update loop over the grown vector
(where indices at or past the pre-spawn length read `track_assigned` out of
bounds — the `junk` parameter), and eviction of every track with
`lost > grace_lost`. -/
def updateTracks (junk : ℕ → Option ℕ) (st : TrackerState)
    (filtered : List Detection) : TrackerState :=
  let m := greedyMatch st.tracks filtered
  let sp := spawnLoop filtered m.1 (List.range filtered.length) st.next_id
  let dja := fun ti => if ti < st.tracks.length then m.2.getD ti none else junk ti
  let updated := updateAll filtered dja 0 (st.tracks ++ sp.1)
  { tracks := updated.filter (fun t => t.lost ≤ grace_lost), next_id := sp.2 }

/-- `n` consecutive frame updates: frame `k` uses detection list `dets k`
and out-of-bounds read values `junks k`. -/
def runUpdates (junks : ℕ → ℕ → Option ℕ) (dets : ℕ → List Detection) :
    ℕ → TrackerState → TrackerState
  | 0, st => st
  | n + 1, st => updateTracks (junks n) (runUpdates junks dets n st) (dets n)

/-- The track of id `I`, looked up in the state's vector. -/
def TrackerState.findId (st : TrackerState) (I : ℕ) : Option Track :=
  st.tracks.find? (fun t => t.id == I)

/-- Tracker state sanity: track ids are pairwise distinct and below
`next_id`.  The initial state (empty vector, `next_id = 1`) satisfies it,
and every frame update preserves it. -/
def WellFormed (st : TrackerState) : Prop :=
  ((st.tracks.map (fun t => t.id)).Pairwise (fun a b => a ≠ b)) ∧
  ∀ t ∈ st.tracks, t.id < st.next_id

/-- The track with id `I` is left unmatched by this frame's greedy
matching pass: `track_assigned` is `-1` (`none`) at each of its
positions. -/
def UnmatchedAt (st : TrackerState) (filtered : List Detection) (I : ℕ) : Prop :=
  ∀ ti < st.tracks.length, (st.tracks.getD ti default).id = I →
    (greedyMatch st.tracks filtered).2.getD ti none = none

instance (st : TrackerState) (filtered : List Detection) (I : ℕ) :
    Decidable (UnmatchedAt st filtered I) := by
  unfold UnmatchedAt
  infer_instance

instance (st : TrackerState) : Decidable (WellFormed st) := by
  unfold WellFormed
  infer_instance

/-- A single confident allow-listed detection (class 2, confidence 0.9). -/
def c4det : Detection := { box := ⟨10, 10, 20, 20⟩, conf := 9 / 10, cls := 2 }

/-- A track as it stands at the end of its last matched frame. -/
def t7 : Track :=
  { id := 1, box := ⟨10, 10, 20, 20⟩, conf := 9 / 10, cls := 2,
    age := 1, lost := 0, smooth := ⟨10, 10, 20, 20⟩ }

/-! ### Queue lemmas and claims C1, C2, C8 -/

/-- A single step keeps the capacity field and never grows the buffer past
the capacity. -/
theorem QStep.preserves {s u : FrameQueue α} {e : QEvent α}
    (h : QStep s e u) (hlen : s.q.length ≤ s.max_size) :
    u.max_size = s.max_size ∧ u.q.length ≤ u.max_size := by
  cases h with
  | push_refused h => exact ⟨rfl, hlen⟩
  | push_ok hc hlt =>
    refine ⟨rfl, ?_⟩
    simpa using hlt
  | pop_none he hc => exact ⟨rfl, hlen⟩
  | pop_some he =>
    refine ⟨rfl, ?_⟩
    have h1 := congrArg List.length he
    simp only [List.length_cons] at h1
    simp only []
    omega
  | close_step => exact ⟨rfl, hlen⟩

/-- Invariant of all reachable states: the capacity field stays `C` and the
buffer length never exceeds it. -/
theorem QReach.invariant {C : ℕ} {s : FrameQueue α}
    (h : QReach (FrameQueue.init α C) s) :
    s.max_size = C ∧ s.q.length ≤ C := by
  induction h with
  | refl => exact ⟨rfl, Nat.zero_le C⟩
  | step _ hstep ih =>
    obtain ⟨hmax, hlen⟩ := ih
    obtain ⟨hmax2, hlen2⟩ := hstep.preserves (by rw [hmax]; exact hlen)
    refine ⟨hmax2.trans hmax, ?_⟩
    rw [hmax2, hmax] at hlen2
    exact hlen2

/-- Draining a closed queue: `length q` pops return exactly the buffered
items, leaving an empty closed queue. -/
theorem FrameQueue.popN_drain (q : List α) (C : ℕ) :
    FrameQueue.popN q.length { q := q, max_size := C, closed := true } =
      (q.map some, { q := [], max_size := C, closed := true }) := by
  induction q with
  | nil => rfl
  | cons f rest ih =>
    simp only [List.length_cons, FrameQueue.popN, FrameQueue.popOp, List.map_cons]
    rw [ih]

/-- Claim C1: for every queue state at the moment `close()` is called, each
buffered item is still returned by a subsequent `pop()` exactly once, in
FIFO order (the `length q` pops after closing return precisely the buffered
list, head first), and the first `pop()` issued after the buffer is drained
(queue empty and closed) returns false. -/
theorem c1_drain_after_close (α : Type) (s : FrameQueue α) :
    (FrameQueue.popN s.q.length s.close).1 = s.q.map some ∧
    (FrameQueue.popN s.q.length s.close).2 =
      { q := [], max_size := s.max_size, closed := true } ∧
    ((FrameQueue.popN s.q.length s.close).2.popOp =
      (none, (FrameQueue.popN s.q.length s.close).2)) := by
  have hclose : s.close = { q := s.q, max_size := s.max_size, closed := true } := rfl
  rw [hclose, FrameQueue.popN_drain]
  exact ⟨rfl, rfl, rfl⟩

/-- Claim C2: for every queue constructed with capacity `C` and every
sequence of completed push, pop and close operations, the buffer length
never exceeds `C`; and a completed successful push always starts from a
state whose size is strictly below its capacity. -/
theorem c2_size_bounded (α : Type) (C : ℕ) :
    (∀ s : FrameQueue α, QReach (FrameQueue.init α C) s → s.q.length ≤ C) ∧
    (∀ (s u : FrameQueue α) (f : α),
      QStep s (.pushMsg f true) u → s.q.length < s.max_size) := by
  constructor
  · intro s h
    exact h.invariant.2
  · intro s u f h
    cases h with
    | push_ok hc hlt => exact hlt

/-- Witness for C2 at capacity 2: the state reached by two successful
pushes has at most 2 buffered items, and its first push started strictly
below capacity. -/
theorem c2_size_bounded_witness :
    ((⟨[0, 1], 2, false⟩ : FrameQueue ℕ).q.length ≤ 2) ∧
    ((FrameQueue.init ℕ 2).q.length < (FrameQueue.init ℕ 2).max_size) := by
  have h0 : QStep (FrameQueue.init ℕ 2) (.pushMsg 0 true)
      (⟨[0], 2, false⟩ : FrameQueue ℕ) := QStep.push_ok rfl (by decide)
  have h1 : QStep (⟨[0], 2, false⟩ : FrameQueue ℕ) (.pushMsg 1 true)
      (⟨[0, 1], 2, false⟩ : FrameQueue ℕ) := QStep.push_ok rfl (by decide)
  constructor
  · exact (c2_size_bounded ℕ 2).1 _
      (QReach.step (QReach.step (QReach.refl _) h0) h1)
  · exact (c2_size_bounded ℕ 2).2 _ _ 0 h0

/-- Claim C8: for a queue of capacity 0, every reachable state has an empty
buffer (the queue reports empty at all times), every completed push returns
false and leaves the state unchanged (nothing is ever enqueued), and every
completed pop from a reachable state returns false. -/
theorem c8_capacity_zero (α : Type) :
    (∀ s : FrameQueue α, QReach (FrameQueue.init α 0) s → s.q = []) ∧
    (∀ (s u : FrameQueue α) (f : α) (ok : Bool), s.max_size = 0 →
      QStep s (.pushMsg f ok) u → ok = false ∧ u = s) ∧
    (∀ (s u : FrameQueue α) (r : Option α),
      QReach (FrameQueue.init α 0) s → QStep s (.popMsg r) u → r = none) := by
  refine ⟨?_, ?_, ?_⟩
  · intro s h
    have := h.invariant.2
    exact List.length_eq_zero.mp (Nat.le_zero.mp this)
  · intro s u f ok hmax h
    cases h with
    | push_refused h => exact ⟨rfl, rfl⟩
    | push_ok hc hlt =>
      rw [hmax] at hlt
      exact absurd hlt (Nat.not_lt_zero _)
  · intro s u r hr h
    have hq : s.q = [] := by
      have := hr.invariant.2
      exact List.length_eq_zero.mp (Nat.le_zero.mp this)
    cases h with
    | pop_none he hc => rfl
    | pop_some he => rw [hq] at he; exact absurd he (List.noConfusion)

/-- Witness for C8: a closed capacity-0 queue is reachable with an empty
buffer, a push into it is refused without changing it, and a pop from it
returns false. -/
theorem c8_capacity_zero_witness :
    ((⟨[], 0, true⟩ : FrameQueue ℕ).q = []) ∧
    (false = false ∧ (⟨[], 0, true⟩ : FrameQueue ℕ) = ⟨[], 0, true⟩) ∧
    ((none : Option ℕ) = none) := by
  have hreach : QReach (FrameQueue.init ℕ 0) (⟨[], 0, true⟩ : FrameQueue ℕ) :=
    QReach.step (QReach.refl _) QStep.close_step
  refine ⟨?_, ?_, ?_⟩
  · exact (c8_capacity_zero ℕ).1 _ hreach
  · exact (c8_capacity_zero ℕ).2.1 _ _ 7 false rfl (QStep.push_refused (Or.inl rfl))
  · exact (c8_capacity_zero ℕ).2.2 _ _ none hreach (QStep.pop_none rfl rfl)

/-! ### Lemmas about the sorting step -/

theorem insertDet_perm (d : Detection) (l : List Detection) :
    (insertDet d l).Perm (d :: l) := by
  induction l with
  | nil => exact List.Perm.refl _
  | cons e rest ih =>
    by_cases h : e.conf < d.conf
    · simp [insertDet, h]
    · simp only [insertDet, if_neg h]
      exact (ih.cons e).trans (List.Perm.swap d e rest)

theorem insertDet_pairwise (d : Detection) (l : List Detection)
    (h : l.Pairwise (fun a b => b.conf ≤ a.conf)) :
    (insertDet d l).Pairwise (fun a b => b.conf ≤ a.conf) := by
  induction l with
  | nil => simp [insertDet]
  | cons e rest ih =>
    rcases List.pairwise_cons.mp h with ⟨he, hrest⟩
    by_cases hc : e.conf < d.conf
    · simp only [insertDet, if_pos hc]
      refine List.pairwise_cons.mpr ⟨?_, h⟩
      intro x hx
      rcases List.mem_cons.mp hx with rfl | hx2
      · exact le_of_lt hc
      · exact le_trans (he x hx2) (le_of_lt hc)
    · simp only [insertDet, if_neg hc]
      refine List.pairwise_cons.mpr ⟨?_, ih hrest⟩
      intro x hx
      rcases List.mem_cons.mp ((insertDet_perm d rest).mem_iff.mp hx) with rfl | hx3
      · exact le_of_not_lt hc
      · exact he x hx3

theorem sortDetections_perm (l : List Detection) : (sortDetections l).Perm l := by
  induction l with
  | nil => exact List.Perm.refl _
  | cons d rest ih => exact (insertDet_perm d _).trans (ih.cons d)

theorem sortDetections_sorted (l : List Detection) :
    (sortDetections l).Pairwise (fun a b => b.conf ≤ a.conf) := by
  induction l with
  | nil => simp [sortDetections]
  | cons d rest ih => exact insertDet_pairwise d _ ih

/-! ### Lemmas about the NMS double loop -/

theorem nmsRun_subset {l : List Detection} {it : ℚ} :
    ∀ (idxs : List ℕ) (sup : ℕ → Bool) (k : ℕ),
      k ∈ nmsRun l it idxs sup → k ∈ idxs := by
  intro idxs
  induction idxs with
  | nil =>
    intro sup k h
    simp [nmsRun] at h
  | cons i rest ih =>
    intro sup k h
    by_cases hs : sup i
    · rw [nmsRun, if_pos hs] at h
      exact List.mem_cons_of_mem i (ih _ _ h)
    · rw [nmsRun, if_neg hs] at h
      rcases List.mem_cons.mp h with rfl | h2
      · exact List.mem_cons_self _ _
      · exact List.mem_cons_of_mem i (ih _ _ h2)

/-- Every emitted position was unsuppressed when the walk started. -/
theorem nmsRun_not_sup {l : List Detection} {it : ℚ} :
    ∀ (idxs : List ℕ) (sup : ℕ → Bool) (k : ℕ),
      k ∈ nmsRun l it idxs sup → sup k = false := by
  intro idxs
  induction idxs with
  | nil =>
    intro sup k h
    simp [nmsRun] at h
  | cons i rest ih =>
    intro sup k h
    by_cases hs : sup i
    · rw [nmsRun, if_pos hs] at h
      exact ih _ _ h
    · rw [nmsRun, if_neg hs] at h
      rcases List.mem_cons.mp h with rfl | h2
      · exact Bool.eq_false_iff.mpr hs
      · have := ih _ _ h2
        exact (Bool.or_eq_false_iff.mp this).1

/-- Any two emitted positions fail the suppression test (in emission
order). -/
theorem nmsRun_pairwise {l : List Detection} {it : ℚ} :
    ∀ (idxs : List ℕ) (sup : ℕ → Bool),
      (nmsRun l it idxs sup).Pairwise (fun m k => suppCond l it m k = false) := by
  intro idxs
  induction idxs with
  | nil =>
    intro sup
    simp [nmsRun]
  | cons i rest ih =>
    intro sup
    by_cases hs : sup i
    · rw [nmsRun, if_pos hs]
      exact ih _
    · rw [nmsRun, if_neg hs]
      refine List.pairwise_cons.mpr ⟨?_, ih _⟩
      intro k hk
      have := nmsRun_not_sup _ _ _ hk
      exact (Bool.or_eq_false_iff.mp this).2

/-- A position that enters the walk unsuppressed is either emitted or
suppressed by an earlier emitted position. -/
theorem nmsRun_complete {l : List Detection} {it : ℚ} :
    ∀ (idxs : List ℕ) (sup : ℕ → Bool),
      idxs.Pairwise (· < ·) →
      ∀ k ∈ idxs, sup k = false →
        k ∈ nmsRun l it idxs sup ∨
        ∃ m ∈ nmsRun l it idxs sup, m < k ∧ suppCond l it m k = true := by
  intro idxs
  induction idxs with
  | nil =>
    intro sup _ k hk
    simp at hk
  | cons i rest ih =>
    intro sup hpw k hk hsup
    rcases List.pairwise_cons.mp hpw with ⟨hlt, hpw2⟩
    rcases List.mem_cons.mp hk with rfl | hk2
    · by_cases hs : sup k
      · rw [hsup] at hs
        exact absurd hs (by simp)
      · rw [nmsRun, if_neg hs]
        exact Or.inl (List.mem_cons_self _ _)
    · by_cases hs : sup i
      · rw [nmsRun, if_pos hs]
        exact ih sup hpw2 k hk2 hsup
      · rw [nmsRun, if_neg hs]
        by_cases hsc : suppCond l it i k
        · refine Or.inr ⟨i, List.mem_cons_self _ _, hlt k hk2, hsc⟩
        · have hsup2 : (sup k || suppCond l it i k) = false := by
            rw [hsup, Bool.eq_false_iff.mpr hsc]
            rfl
          rcases ih (fun j => sup j || suppCond l it i j) hpw2 k hk2 hsup2 with
            hin | ⟨m, hm, hmk, hcond⟩
          · exact Or.inl (List.mem_cons_of_mem i hin)
          · exact Or.inr ⟨m, List.mem_cons_of_mem i hm, hmk, hcond⟩

theorem getD_of_lt (l : List Detection) (k : ℕ) (hk : k < l.length) :
    l.getD k default = l.get ⟨k, hk⟩ := by
  rw [List.getD_eq_getElem?_getD, List.getElem?_eq_getElem hk]
  rfl

/-- NMS output elements all come from the input list. -/
theorem nms_sub (l : List Detection) (it : ℚ) :
    ∀ d ∈ nms l it, d ∈ l := by
  intro d hd
  obtain ⟨k, hk, rfl⟩ := List.mem_map.mp hd
  have hklen := List.mem_range.mp (nmsRun_subset _ _ _ hk)
  rw [getD_of_lt l k hklen]
  exact List.get_mem l _ _

/-- Pairwise NMS invariant: two surviving detections of the same class
have IoU at most the threshold. -/
theorem nms_pairwise (l : List Detection) (it : ℚ) :
    (nms l it).Pairwise (fun a b => a.cls = b.cls → computeIoU a.box b.box ≤ it) := by
  unfold nms
  rw [List.pairwise_map]
  refine (nmsRun_pairwise _ _).imp ?_
  intro m k h hcls
  simp only [suppCond, Bool.and_eq_false_iff, decide_eq_false_iff_not] at h
  rcases h with h | h
  · exact absurd hcls h
  · exact le_of_not_lt h

/-- NMS completeness on a sorted list: a suppressed detection is dominated
by a surviving one of the same class with IoU above the threshold and at
least its confidence. -/
theorem nms_complete (l : List Detection) (it : ℚ)
    (hsorted : l.Pairwise (fun a b => b.conf ≤ a.conf)) :
    ∀ d ∈ l, d ∉ nms l it →
      ∃ e ∈ nms l it, e.cls = d.cls ∧ it < computeIoU e.box d.box ∧ d.conf ≤ e.conf := by
  intro d hd hdout
  obtain ⟨⟨k, hk⟩, hget⟩ := List.mem_iff_get.mp hd
  have hkrange : k ∈ List.range l.length := List.mem_range.mpr hk
  rcases @nmsRun_complete l it (List.range l.length) (fun _ => false)
      (List.pairwise_lt_range _) k hkrange rfl with hin | ⟨m, hm, hmk, hcond⟩
  · exfalso
    apply hdout
    refine List.mem_map.mpr ⟨k, hin, ?_⟩
    rw [getD_of_lt l k hk]
    exact hget
  · have hmlen := List.mem_range.mp (nmsRun_subset _ _ _ hm)
    simp only [suppCond, Bool.and_eq_true, decide_eq_true_eq] at hcond
    refine ⟨l.getD m default, List.mem_map.mpr ⟨m, hm, rfl⟩, ?_, ?_, ?_⟩
    · rw [getD_of_lt l k hk, hget] at hcond
      exact hcond.1
    · rw [getD_of_lt l k hk, hget] at hcond
      exact hcond.2
    · rw [getD_of_lt l m hmlen]
      have := List.pairwise_iff_get.mp hsorted ⟨m, hmlen⟩ ⟨k, hk⟩ hmk
      rw [hget] at this
      exact this

/-! ### Claims C3, C5, C6, C9 -/

/-- Claim C3 as stated is false: with a confidence threshold of 0 the
class-score scan of a 4-row tensor yields a maximum of 0, which is not
below the threshold, so the anchor is kept and `postprocess` returns a
non-empty list (with class index -1) instead of the empty list. -/
theorem c3_counterexample :
    c3mat.rows < 5 ∧ postprocess c3mat ⟨640, 640⟩ 0 (1 / 2) ≠ [] := by
  constructor
  · decide
  · with_unfolding_all decide

/-- Claim C3, amended: for every input tensor with fewer than 5 rows
(including zero rows), every original image size, every strictly positive
confidence threshold and every IoU threshold, `postprocess` returns the
empty detection list.  (With at most 4 rows the class-score loop body never
runs, the running maximum stays 0, and a positive threshold discards every
anchor.) -/
theorem c3_malformed_empty (preds : Mat) (original_image_size : Size)
    (conf_threshold iou_threshold : ℚ)
    (hrows : preds.rows < 5) (hct : 0 < conf_threshold) :
    postprocess preds original_image_size conf_threshold iou_threshold = [] := by
  have hdd : decodeDetections preds original_image_size conf_threshold = [] := by
    unfold decodeDetections
    rw [List.filterMap_eq_nil_iff]
    intro i _
    unfold decodeAnchor
    have hzero : preds.rows - 4 = 0 := by omega
    have hmc : anchorMaxClass preds i = (0, -1) := by
      unfold anchorMaxClass
      rw [hzero]
      rfl
    rw [hmc]
    simp only
    rw [if_pos hct]
  unfold postprocess
  by_cases he : preds.isEmpty
  · rw [if_pos he]
  · rw [if_neg he]
    simp only [hdd]
    rfl

/-- Witness for the amended C3 at a concrete 4-row tensor and positive
threshold. -/
theorem c3_malformed_empty_witness :
    postprocess c3mat ⟨640, 640⟩ (1 / 4) (1 / 2) = [] :=
  c3_malformed_empty c3mat ⟨640, 640⟩ (1 / 4) (1 / 2) (by decide)
    (by with_unfolding_all decide)

/-- Claim C5 as stated is false: the source sorts with
`std::sort(..., a.conf > b.conf)`, whose only guarantee is
`SortByConfDesc` (a permutation ordered by confidence descending, with the
relative order of equal elements unspecified); the reversed list
`[c5b, c5a]` satisfies that contract for the input `[c5a, c5b]` yet swaps
the two equal-confidence detections. -/
theorem c5_counterexample :
    SortByConfDesc [c5a, c5b] [c5b, c5a] ∧ ¬ TiesKeepOrder [c5a, c5b] [c5b, c5a] := by
  constructor
  · exact ⟨List.Perm.swap c5a c5b [], by with_unfolding_all decide⟩
  · intro h
    exact absurd (h (1 / 2)) (by with_unfolding_all decide)

/-- Claim C5, amended: the list handed to NMS is a permutation of the
surviving decoded detections sorted by confidence in descending order (the
relative order of equal-confidence detections is unspecified, since the
source uses `std::sort`, which is not stable). -/
theorem c5_sorted_before_nms (preds : Mat) (original_image_size : Size)
    (conf_threshold : ℚ) :
    SortByConfDesc (decodeDetections preds original_image_size conf_threshold)
      (sortDetections (decodeDetections preds original_image_size conf_threshold)) :=
  ⟨sortDetections_perm _, sortDetections_sorted _⟩

/-- `postprocess` on a non-empty tensor is NMS applied to the sorted
survivors (also when no anchor survives, since NMS of the empty list is
empty). -/
theorem postprocess_eq_nms (preds : Mat) (osize : Size) (ct it : ℚ)
    (hne : preds.isEmpty = false) :
    postprocess preds osize ct it =
      nms (sortDetections (decodeDetections preds osize ct)) it := by
  unfold postprocess
  rw [hne]
  simp only [Bool.false_eq_true, if_false]
  by_cases hdd : decodeDetections preds osize ct = []
  · rw [hdd]
    rfl
  · rw [if_neg ?_]
    simp [List.isEmpty_iff, hdd]

/-- Claim C6: on any non-empty input tensor, (a) no two detections
returned by `postprocess` have the same class and IoU strictly above the
IoU threshold; (b) every sorted surviving detection that is not returned
is dominated by a returned detection of the same class with IoU above the
threshold and at least its confidence (the higher-confidence one
survives); (c) a surviving detection whose class differs from every other
surviving detection is always returned, whatever the overlap — detections
of different classes never suppress one another. -/
theorem c6_nms_class_aware (preds : Mat) (original_image_size : Size)
    (conf_threshold iou_threshold : ℚ) (hne : preds.isEmpty = false) :
    ((postprocess preds original_image_size conf_threshold iou_threshold).Pairwise
      (fun a b => a.cls = b.cls → computeIoU a.box b.box ≤ iou_threshold)) ∧
    (∀ d ∈ sortDetections (decodeDetections preds original_image_size conf_threshold),
      d ∉ postprocess preds original_image_size conf_threshold iou_threshold →
      ∃ e ∈ postprocess preds original_image_size conf_threshold iou_threshold,
        e.cls = d.cls ∧ iou_threshold < computeIoU e.box d.box ∧ d.conf ≤ e.conf) ∧
    (∀ d ∈ sortDetections (decodeDetections preds original_image_size conf_threshold),
      (∀ e ∈ sortDetections (decodeDetections preds original_image_size conf_threshold),
        e ≠ d → e.cls ≠ d.cls) →
      d ∈ postprocess preds original_image_size conf_threshold iou_threshold) := by
  rw [postprocess_eq_nms preds original_image_size conf_threshold iou_threshold hne]
  refine ⟨nms_pairwise _ _, nms_complete _ _ (sortDetections_sorted _), ?_⟩
  intro d hd hno
  by_contra hdout
  obtain ⟨e, he, hecls, -, -⟩ :=
    nms_complete _ iou_threshold (sortDetections_sorted _) d hd hdout
  have hne2 : e ≠ d := fun h => hdout (h ▸ he)
  exact hno e (nms_sub _ _ e he) hne2 hecls

/-- Witness for C6: on `c6mat` the lower-confidence overlapping class-0
detection is suppressed, and the theorem produces its surviving
dominator. -/
theorem c6_nms_class_aware_witness :
    ∃ e ∈ postprocess c6mat ⟨640, 640⟩ (1 / 4) (1 / 2),
      e.cls = c6low.cls ∧ (1 / 2 : ℚ) < computeIoU e.box c6low.box ∧
      c6low.conf ≤ e.conf := by
  refine (c6_nms_class_aware c6mat ⟨640, 640⟩ (1 / 4) (1 / 2) (by decide)).2.1
    c6low ?_ ?_
  · with_unfolding_all decide
  · with_unfolding_all decide

/-- The class index selected by the class-score scan is non-negative
whenever the selected maximum is positive (the scan starts at score 0 and
class -1 and only moves to class `j - 4 ≥ 0` on a strictly larger score). -/
theorem anchorMaxClass_nonneg (preds : Mat) (i : ℕ)
    (h : 0 < (anchorMaxClass preds i).1) : 0 ≤ (anchorMaxClass preds i).2 := by
  have key : ∀ (js : List ℕ) (acc : ℚ × ℤ),
      (0 ≤ acc.2 ∨ (acc.1 = 0 ∧ acc.2 = -1)) →
      (0 ≤ (js.foldl
        (fun acc jc =>
          if acc.1 < preds.entry (4 + jc) i then (preds.entry (4 + jc) i, (jc : ℤ))
          else acc) acc).2 ∨
      ((js.foldl
        (fun acc jc =>
          if acc.1 < preds.entry (4 + jc) i then (preds.entry (4 + jc) i, (jc : ℤ))
          else acc) acc).1 = 0 ∧
       (js.foldl
        (fun acc jc =>
          if acc.1 < preds.entry (4 + jc) i then (preds.entry (4 + jc) i, (jc : ℤ))
          else acc) acc).2 = -1)) := by
    intro js
    induction js with
    | nil => intro acc hacc; exact hacc
    | cons j rest ih =>
      intro acc hacc
      simp only [List.foldl_cons]
      apply ih
      by_cases hc : acc.1 < preds.entry (4 + j) i
      · rw [if_pos hc]
        exact Or.inl (Int.natCast_nonneg j)
      · rw [if_neg hc]
        exact hacc
  rcases key (List.range (preds.rows - 4)) (0, -1) (Or.inr ⟨rfl, rfl⟩) with hk | ⟨hz, -⟩
  · exact hk
  · unfold anchorMaxClass at h
    rw [hz] at h
    exact absurd h (lt_irrefl 0)

/-- Inversion of a successful anchor decode: the detection records the
scan's maximum score (at least the threshold) and its class index. -/
theorem decodeAnchor_some {preds : Mat} {osize : Size} {ct : ℚ} {i : ℕ}
    {d : Detection} (h : decodeAnchor preds osize ct i = some d) :
    ct ≤ (anchorMaxClass preds i).1 ∧ d.conf = (anchorMaxClass preds i).1 ∧
    d.cls = (anchorMaxClass preds i).2 := by
  unfold decodeAnchor at h
  by_cases hlt : (anchorMaxClass preds i).1 < ct
  · rw [if_pos hlt] at h
    exact absurd h (by simp)
  · rw [if_neg hlt] at h
    refine ⟨le_of_not_lt hlt, ?_⟩
    dsimp only at h
    split_ifs at h with hwh
    cases h
    exact ⟨rfl, rfl⟩

/-- Claim C9 as stated is false: with a confidence threshold of 0 and a
class row that is identically 0, the scan keeps its initial class index -1
(a score of 0 is never strictly larger than the running maximum 0), the
anchor passes the gate, and `postprocess` returns a detection with a
negative `classId`. -/
theorem c9_counterexample :
    ∃ d, d ∈ postprocess c9mat ⟨640, 640⟩ 0 (1 / 2) ∧ d.cls < 0 := by
  refine ⟨{ box := ⟨270, 270, 100, 100⟩, conf := 0, cls := -1 }, ?_, by decide⟩
  have : postprocess c9mat ⟨640, 640⟩ 0 (1 / 2) =
      [{ box := ⟨270, 270, 100, 100⟩, conf := 0, cls := -1 }] := by
    with_unfolding_all decide
  rw [this]
  exact List.mem_singleton.mpr rfl

/-- Claim C9, amended: for every input tensor, image size and IoU
threshold, and every strictly positive confidence threshold, every
detection returned by `postprocess` has a non-negative `classId`.  (A
returned detection's confidence is the scan maximum, which is at least the
positive threshold, so the scan moved off its initial class index -1.) -/
theorem c9_nonneg_class (preds : Mat) (original_image_size : Size)
    (conf_threshold iou_threshold : ℚ) (hct : 0 < conf_threshold) :
    ∀ d ∈ postprocess preds original_image_size conf_threshold iou_threshold,
      0 ≤ d.cls := by
  intro d hd
  have hne : preds.isEmpty = false := by
    by_contra h
    rw [Bool.not_eq_false] at h
    rw [postprocess, if_pos h] at hd
    exact absurd hd (List.not_mem_nil d)
  rw [postprocess_eq_nms preds original_image_size conf_threshold iou_threshold hne] at hd
  have hsorted := nms_sub _ _ d hd
  have hdec := (sortDetections_perm _).mem_iff.mp hsorted
  obtain ⟨i, -, hsome⟩ := List.mem_filterMap.mp hdec
  obtain ⟨hge, hconf, hcls⟩ := decodeAnchor_some hsome
  rw [hcls]
  exact anchorMaxClass_nonneg preds i (lt_of_lt_of_le hct hge)

/-- Witness for the amended C9 at a concrete 5-row tensor whose single
surviving detection has class index 0. -/
theorem c9_nonneg_class_witness :
    ∃ d, d ∈ postprocess c6mat ⟨640, 640⟩ (1 / 4) (1 / 2) ∧ 0 ≤ d.cls := by
  refine ⟨{ box := ⟨80, 80, 40, 40⟩, conf := 9 / 10, cls := 0 }, ?_, ?_⟩
  · have : postprocess c6mat ⟨640, 640⟩ (1 / 4) (1 / 2) =
        [{ box := ⟨80, 80, 40, 40⟩, conf := 9 / 10, cls := 0 }] := by
      with_unfolding_all decide
    rw [this]
    exact List.mem_singleton.mpr rfl
  · exact c9_nonneg_class c6mat ⟨640, 640⟩ (1 / 4) (1 / 2)
      (by with_unfolding_all decide) _ (by with_unfolding_all decide)

/-! ### Lemmas about the tracker update -/

theorem updateTracks_tracks (junk : ℕ → Option ℕ) (st : TrackerState)
    (filtered : List Detection) :
    (updateTracks junk st filtered).tracks =
      (updateAll filtered
        (fun ti => if ti < st.tracks.length
          then (greedyMatch st.tracks filtered).2.getD ti none else junk ti)
        0
        (st.tracks ++ (spawnLoop filtered (greedyMatch st.tracks filtered).1
            (List.range filtered.length) st.next_id).1)).filter
        (fun t => t.lost ≤ grace_lost) := rfl

theorem updateTracks_next_id (junk : ℕ → Option ℕ) (st : TrackerState)
    (filtered : List Detection) :
    (updateTracks junk st filtered).next_id =
      (spawnLoop filtered (greedyMatch st.tracks filtered).1
        (List.range filtered.length) st.next_id).2 := rfl

theorem updateOne_id (filtered : List Detection) (dj : Option ℕ) (t : Track) :
    (updateOne filtered dj t).id = t.id := by
  cases dj with
  | none => rfl
  | some j =>
    unfold updateOne
    dsimp only
    cases h : filtered.get? j with
    | none => rfl
    | some det => rfl

theorem updateAll_map_id (filtered : List Detection) (dja : ℕ → Option ℕ) :
    ∀ (k : ℕ) (ts : List Track),
      (updateAll filtered dja k ts).map (fun t => t.id) = ts.map (fun t => t.id) := by
  intro k ts
  induction ts generalizing k with
  | nil => rfl
  | cons t ts ih =>
    simp only [updateAll, List.map_cons, updateOne_id, ih]

theorem updateAll_append (filtered : List Detection) (dja : ℕ → Option ℕ) :
    ∀ (l₁ l₂ : List Track) (k : ℕ),
      updateAll filtered dja k (l₁ ++ l₂) =
        updateAll filtered dja k l₁ ++ updateAll filtered dja (k + l₁.length) l₂ := by
  intro l₁
  induction l₁ with
  | nil =>
    intro l₂ k
    simp [updateAll]
  | cons t ts ih =>
    intro l₂ k
    show updateOne filtered (dja k) t :: updateAll filtered dja (k + 1) (ts ++ l₂) =
      updateOne filtered (dja k) t ::
        (updateAll filtered dja (k + 1) ts ++
          updateAll filtered dja (k + (ts.length + 1)) l₂)
    rw [ih l₂ (k + 1)]
    have harith : k + 1 + ts.length = k + (ts.length + 1) := by omega
    rw [harith]

theorem updateAll_mem_id (filtered : List Detection) (dja : ℕ → Option ℕ)
    (k : ℕ) (ts : List Track) {x : Track} (hx : x ∈ updateAll filtered dja k ts) :
    x.id ∈ ts.map (fun t => t.id) := by
  rw [← updateAll_map_id filtered dja k ts]
  exact List.mem_map_of_mem _ hx

/-- Spawned tracks carry fresh ids: pairwise distinct, at least the
starting counter, and strictly below the final counter (which never
decreases). -/
theorem spawnLoop_bounds (filtered : List Detection) (detA : List (Option ℕ)) :
    ∀ (js : List ℕ) (n : ℕ),
      n ≤ (spawnLoop filtered detA js n).2 ∧
      (∀ t ∈ (spawnLoop filtered detA js n).1,
        n ≤ t.id ∧ t.id < (spawnLoop filtered detA js n).2) ∧
      (((spawnLoop filtered detA js n).1.map (fun t => t.id)).Pairwise
        (fun a b => a ≠ b)) := by
  intro js
  induction js with
  | nil =>
    intro n
    refine ⟨le_refl n, ?_, ?_⟩
    · intro t ht
      simp [spawnLoop] at ht
    · simp [spawnLoop]
  | cons j js ih =>
    intro n
    rw [spawnLoop]
    cases hj : filtered.get? j with
    | none =>
      cases ha : detA.get? j with
      | none => simp only [hj, ha]; exact ih n
      | some a => simp only [hj, ha]; exact ih n
    | some d =>
      cases ha : detA.get? j with
      | none => simp only [hj, ha]; exact ih n
      | some a =>
        simp only [hj, ha]
        by_cases has : a.isSome
        · rw [if_pos has]
          exact ih n
        · rw [if_neg has]
          by_cases hc : d.conf < enter_conf
          · rw [if_pos hc]
            exact ih n
          · rw [if_neg hc]
            dsimp only
            obtain ⟨h1, h2, h3⟩ := ih (n + 1)
            refine ⟨by omega, ?_, ?_⟩
            · intro t ht
              rcases List.mem_cons.mp ht with rfl | ht2
              · refine ⟨le_refl n, ?_⟩
                show n < (spawnLoop filtered detA js (n + 1)).2
                omega
              · obtain ⟨ha1, ha2⟩ := h2 t ht2
                exact ⟨by omega, ha2⟩
            · rw [List.map_cons]
              refine List.pairwise_cons.mpr ⟨?_, h3⟩
              intro b hb
              obtain ⟨t, ht, rfl⟩ := List.mem_map.mp hb
              obtain ⟨hb1, -⟩ := h2 t ht
              show n ≠ t.id
              omega

theorem find?_append_first {p : Track → Bool} {l₁ l₂ : List Track} {a : Track}
    (h : l₁.find? p = some a) : (l₁ ++ l₂).find? p = some a := by
  rw [List.find?_append, h]
  rfl

theorem find?_append_second {p : Track → Bool} {l₁ l₂ : List Track}
    (h : l₁.find? p = none) : (l₁ ++ l₂).find? p = l₂.find? p := by
  rw [List.find?_append, h]
  rfl

/-- Core per-frame fact: if the track with id `I` is unmatched at every one
of its positions (its per-position assignment reads `none`), then after the
update-and-evict pass the vector holds it with `lost` bumped by one when
that still meets the grace window, and no longer holds id `I` at all
otherwise. -/
theorem findBump (filtered : List Detection) (dja : ℕ → Option ℕ) (I : ℕ) :
    ∀ (l : List Track) (k : ℕ),
      ((l.map (fun t => t.id)).Pairwise (fun a b => a ≠ b)) →
      (∀ ti < l.length, (l.getD ti default).id = I → dja (k + ti) = none) →
      ∀ t₀, l.find? (fun t => t.id == I) = some t₀ →
        ((updateAll filtered dja k l).filter (fun t => t.lost ≤ grace_lost)).find?
            (fun t => t.id == I) =
          if t₀.lost + 1 ≤ grace_lost then some { t₀ with lost := t₀.lost + 1 }
          else none := by
  intro l
  induction l with
  | nil =>
    intro k _ _ t₀ h
    simp at h
  | cons t ts ih =>
    intro k hpw hpos t₀ hfind
    rw [List.map_cons] at hpw
    have hpwhead := (List.pairwise_cons.mp hpw).1
    have hpwtail := (List.pairwise_cons.mp hpw).2
    by_cases hid : t.id = I
    · have ht₀ : t₀ = t := by
        rw [List.find?_cons_of_pos _ (by simpa using hid)] at hfind
        exact (Option.some.inj hfind).symm
      subst ht₀
      have hdja : dja k = none := by
        have := hpos 0 (by simp) (by simpa using hid)
        simpa using this
      simp only [updateAll, hdja, updateOne, List.filter_cons]
      by_cases hkeep : t₀.lost + 1 ≤ grace_lost
      · rw [if_pos (by simpa using hkeep)]
        rw [List.find?_cons_of_pos _ (by simpa using hid), if_pos hkeep]
      · rw [if_neg (by simpa using hkeep), if_neg hkeep]
        rw [List.find?_eq_none]
        intro x hx
        have hxid := updateAll_mem_id filtered dja (k + 1) ts (List.mem_of_mem_filter hx)
        have hne : t₀.id ≠ x.id := hpwhead x.id hxid
        simp only [beq_iff_eq]
        intro hxI
        exact hne (by rw [hxI, hid])
    · have hfind2 : ts.find? (fun t => t.id == I) = some t₀ := by
        rw [List.find?_cons_of_neg _ (by simpa using hid)] at hfind
        exact hfind
      have hpos2 : ∀ ti < ts.length, (ts.getD ti default).id = I →
          dja (k + 1 + ti) = none := by
        intro ti hti hgetd
        have harith : k + (ti + 1) = k + 1 + ti := by omega
        have := hpos (ti + 1) (by simpa using Nat.succ_lt_succ hti)
          (by simpa using hgetd)
        rw [harith] at this
        exact this
      have htail := ih (k + 1) hpwtail hpos2 t₀ hfind2
      simp only [updateAll, List.filter_cons]
      by_cases hkeep : (updateOne filtered (dja k) t).lost ≤ grace_lost
      · rw [if_pos (by simpa using hkeep)]
        rw [List.find?_cons_of_neg _ ?hpred]
        · exact htail
        case hpred =>
          simp only [beq_iff_eq, updateOne_id]
          exact hid
      · rw [if_neg (by simpa using hkeep)]
        exact htail

/-- One frame in which the tracked id goes unmatched: its `lost` counter
increments, and the track is evicted exactly when the incremented counter
exceeds `grace_lost`. -/
theorem updateTracks_unmatched (junk : ℕ → Option ℕ) (st : TrackerState)
    (filtered : List Detection) (I : ℕ) (t₀ : Track)
    (hwf : WellFormed st) (hfind : st.findId I = some t₀)
    (hunm : UnmatchedAt st filtered I) :
    (updateTracks junk st filtered).findId I =
      if t₀.lost + 1 ≤ grace_lost then some { t₀ with lost := t₀.lost + 1 }
      else none := by
  obtain ⟨hpw, hbound⟩ := hwf
  have hI : t₀.id = I := by
    have := List.find?_some hfind
    simpa using this
  have hIlt : I < st.next_id := hI ▸ hbound t₀ (List.mem_of_find?_eq_some hfind)
  obtain ⟨hn, hids, -⟩ := spawnLoop_bounds filtered
    (greedyMatch st.tracks filtered).1 (List.range filtered.length) st.next_id
  have hpos : ∀ ti < st.tracks.length, (st.tracks.getD ti default).id = I →
      (fun ti => if ti < st.tracks.length
        then (greedyMatch st.tracks filtered).2.getD ti none else junk ti)
        (0 + ti) = none := by
    intro ti hti hgetd
    simp only [Nat.zero_add]
    rw [if_pos hti]
    exact hunm ti hti hgetd
  have hfb := findBump filtered
    (fun ti => if ti < st.tracks.length
      then (greedyMatch st.tracks filtered).2.getD ti none else junk ti)
    I st.tracks 0 hpw hpos t₀ hfind
  show ((updateTracks junk st filtered).tracks).find? (fun t => t.id == I) = _
  rw [updateTracks_tracks, updateAll_append, List.filter_append]
  by_cases hkeep : t₀.lost + 1 ≤ grace_lost
  · rw [if_pos hkeep] at hfb ⊢
    exact find?_append_first hfb
  · rw [if_neg hkeep] at hfb ⊢
    rw [find?_append_second hfb, List.find?_eq_none]
    intro x hx
    have hxid := updateAll_mem_id filtered _ _ _ (List.mem_of_mem_filter hx)
    obtain ⟨u, hu, he⟩ := List.mem_map.mp hxid
    have := (hids u hu).1
    simp only [beq_iff_eq]
    intro hxI
    omega

/-- A frame update preserves tracker-state sanity: ids stay pairwise
distinct (spawned ids are fresh) and below the advanced counter. -/
theorem updateTracks_wf (junk : ℕ → Option ℕ) (st : TrackerState)
    (filtered : List Detection) (hwf : WellFormed st) :
    WellFormed (updateTracks junk st filtered) := by
  obtain ⟨hpw, hbound⟩ := hwf
  obtain ⟨hn, hids, hpws⟩ := spawnLoop_bounds filtered
    (greedyMatch st.tracks filtered).1 (List.range filtered.length) st.next_id
  constructor
  · rw [updateTracks_tracks]
    have hsub : ((((updateAll filtered
        (fun ti => if ti < st.tracks.length
          then (greedyMatch st.tracks filtered).2.getD ti none else junk ti)
        0
        (st.tracks ++ (spawnLoop filtered (greedyMatch st.tracks filtered).1
            (List.range filtered.length) st.next_id).1)).filter
          (fun t => t.lost ≤ grace_lost)).map (fun t => t.id)).Sublist
        ((st.tracks ++ (spawnLoop filtered (greedyMatch st.tracks filtered).1
            (List.range filtered.length) st.next_id).1).map (fun t => t.id))) := by
      have h1 := (List.filter_sublist (l := updateAll filtered
        (fun ti => if ti < st.tracks.length
          then (greedyMatch st.tracks filtered).2.getD ti none else junk ti)
        0
        (st.tracks ++ (spawnLoop filtered (greedyMatch st.tracks filtered).1
            (List.range filtered.length) st.next_id).1))
        (p := fun t => t.lost ≤ grace_lost)).map (fun t => t.id)
      rw [updateAll_map_id] at h1
      exact h1
    refine List.Pairwise.sublist hsub ?_
    rw [List.map_append, List.pairwise_append]
    refine ⟨hpw, hpws, ?_⟩
    intro a ha b hb
    obtain ⟨ta, hta, rfl⟩ := List.mem_map.mp ha
    obtain ⟨tb, htb, rfl⟩ := List.mem_map.mp hb
    have h1 := hbound ta hta
    have h2 := (hids tb htb).1
    omega
  · intro t ht
    rw [updateTracks_tracks] at ht
    rw [updateTracks_next_id]
    have hxid := updateAll_mem_id filtered _ _ _ (List.mem_of_mem_filter ht)
    rw [List.map_append] at hxid
    rcases List.mem_append.mp hxid with h | h
    · obtain ⟨u, hu, he⟩ := List.mem_map.mp h
      have := hbound u hu
      omega
    · obtain ⟨u, hu, he⟩ := List.mem_map.mp h
      have := (hids u hu).2
      omega

/-! ### Claims C4 and C7 -/

/-- Claim C4 fails on the code: starting from an empty tracker, one
unmatched detection above `enter_conf` spawns one track with
`rawBox = smoothedBox =` the detection box — but the final update loop then
visits the spawned track and reads `track_assigned` out of bounds, so
whatever non-crashing value `v` that undefined read yields (`-1`, i.e.
`none`, or the only in-range detection index `0`), the track ends its
spawning frame with `lost = 1` or `age = 1`: never with
`age = 0 ∧ lost = 0` as the claim states. -/
theorem c4_spawned_track_not_fresh (v : Option ℕ) (hv : v = none ∨ v = some 0) :
    ∃ t, (updateTracks (fun _ => v) { tracks := [], next_id := 1 } [c4det]).tracks
        = [t] ∧
      t.id = 1 ∧ t.box = c4det.box ∧ t.smooth = c4det.box ∧
      ¬(t.age = 0 ∧ t.lost = 0) := by
  rcases hv with rfl | rfl
  · refine ⟨{ id := 1, box := c4det.box, conf := c4det.conf, cls := c4det.cls,
              age := 0, lost := 1, smooth := c4det.box },
      ?_, rfl, rfl, rfl, by decide⟩
    with_unfolding_all decide
  · refine ⟨{ id := 1, box := c4det.box, conf := c4det.conf, cls := c4det.cls,
              age := 1, lost := 0, smooth := c4det.box },
      ?_, rfl, rfl, ?_, by decide⟩
    · with_unfolding_all decide
    · with_unfolding_all decide

/-- Witness for C4 at the concrete read value `none` (reading `-1`). -/
theorem c4_spawned_track_not_fresh_witness :
    ∃ t, (updateTracks (fun _ => none) { tracks := [], next_id := 1 } [c4det]).tracks
        = [t] ∧
      t.id = 1 ∧ t.box = c4det.box ∧ t.smooth = c4det.box ∧
      ¬(t.age = 0 ∧ t.lost = 0) :=
  c4_spawned_track_not_fresh none (Or.inl rfl)

/-- Claim C7: a track that ends a frame with `lost = 0` (its last matched
frame) and is then left unmatched by every subsequent matching pass
survives the updates in which `lost` reaches `1 .. grace_lost` — present,
with only its `lost` counter changed — and is erased in the update in which
`lost` first exceeds `grace_lost`, i.e. exactly `grace_lost + 1` frames
after its last match and before the next frame's matching pass.  The
`junks` parameter ranges over all (non-crashing) resolutions of the
out-of-bounds `track_assigned` reads that frames with spawns perform. -/
theorem c7_eviction_timing (junks : ℕ → ℕ → Option ℕ) (dets : ℕ → List Detection)
    (st : TrackerState) (I : ℕ) (t₀ : Track) (n : ℕ)
    (hwf : WellFormed st) (hfind : st.findId I = some t₀) (hlost : t₀.lost = 0)
    (hunm : ∀ k < n, UnmatchedAt (runUpdates junks dets k st) (dets k) I) :
    (n ≤ grace_lost →
      (runUpdates junks dets n st).findId I = some { t₀ with lost := n }) ∧
    (n = grace_lost + 1 → (runUpdates junks dets n st).findId I = none) := by
  have aux : ∀ m, (∀ k < m, UnmatchedAt (runUpdates junks dets k st) (dets k) I) →
      m ≤ grace_lost →
      WellFormed (runUpdates junks dets m st) ∧
      (runUpdates junks dets m st).findId I = some { t₀ with lost := m } := by
    intro m
    induction m with
    | zero =>
      intro _ _
      refine ⟨hwf, ?_⟩
      show st.findId I = some { t₀ with lost := 0 }
      have he : ({ t₀ with lost := 0 } : Track) = t₀ := by rw [← hlost]
      rw [he]
      exact hfind
    | succ m ih =>
      intro hu hle
      obtain ⟨hwfm, hfindm⟩ := ih (fun k hk => hu k (Nat.lt_succ_of_lt hk))
        (Nat.le_of_succ_le hle)
      have hstep := updateTracks_unmatched (junks m) _ (dets m) I _ hwfm hfindm
        (hu m (Nat.lt_succ_self m))
      refine ⟨updateTracks_wf _ _ _ hwfm, ?_⟩
      show (updateTracks (junks m) (runUpdates junks dets m st) (dets m)).findId I = _
      rw [hstep, if_pos (show m + 1 ≤ grace_lost from hle)]
  constructor
  · intro hle
    exact (aux n hunm hle).2
  · intro heq
    subst heq
    obtain ⟨hwf3, hfind3⟩ := aux grace_lost
      (fun k hk => hunm k (Nat.lt_succ_of_lt hk)) (le_refl _)
    have hstep := updateTracks_unmatched (junks grace_lost) _ (dets grace_lost) I _
      hwf3 hfind3 (hunm grace_lost (Nat.lt_succ_self _))
    show (updateTracks (junks grace_lost) (runUpdates junks dets grace_lost st)
      (dets grace_lost)).findId I = none
    rw [hstep, if_neg (Nat.not_succ_le_self grace_lost)]

/-- Witness for C7: with no further detections, the track is still present
with `lost = 3` after 3 frames and gone after the 4th. -/
theorem c7_eviction_timing_witness :
    (runUpdates (fun _ _ => none) (fun _ => []) 3
        { tracks := [t7], next_id := 2 }).findId 1 = some { t7 with lost := 3 } ∧
    (runUpdates (fun _ _ => none) (fun _ => []) 4
        { tracks := [t7], next_id := 2 }).findId 1 = none := by
  have h3 := c7_eviction_timing (fun _ _ => none) (fun _ => [])
    { tracks := [t7], next_id := 2 } 1 t7 3
    (by with_unfolding_all decide) (by with_unfolding_all decide)
    (by with_unfolding_all decide) (by with_unfolding_all decide)
  have h4 := c7_eviction_timing (fun _ _ => none) (fun _ => [])
    { tracks := [t7], next_id := 2 } 1 t7 4
    (by with_unfolding_all decide) (by with_unfolding_all decide)
    (by with_unfolding_all decide) (by with_unfolding_all decide)
  exact ⟨h3.1 (by decide), h4.2 rfl⟩

end Yolo
